import Mathlib

/-!
Shallow embedding of the SQLite-style container reader (src/main.rs).

Bytes are modelled as `Nat` values below 256, byte buffers as `List Nat`.
Machine integers are modelled as `Nat` with explicit reductions modulo
2 ^ 16 (u16) and 2 ^ 64 (u64) exactly where the Rust arithmetic wraps.
Fallible operations return `Except DbError`; Rust panics (out-of-range
slice indexing, which is how unsigned-subtraction underflow surfaces at
the following index operation) are modelled as the distinguished error
`DbError.oob`, while `anyhow` errors map to `decodeErr` / `ioErr` /
`notFound`.
-/

inductive DataType where
  | Null
  | String
  | Int8
  | Int16
  | Int24
  | Int32
  | Int48
  | Int64
  | Unknown
deriving DecidableEq

inductive DataValue where
  | Null
  | String (bytes : List Nat)
  | Int (value : Int)
  | Unknown
deriving DecidableEq

inductive DbError where
  | ioErr
  | decodeErr
  | notFound
  | oob
deriving DecidableEq

/-- Loop body of `decode_varint` from src/main.rs: `result` and `shift`
are the accumulator and the cumulative shift counter, `bytes_read` the
number of bytes consumed so far.  The accumulator is a u64, so every
update is reduced modulo 2 ^ 64; `b &&& 127` is `byte & 0b0111_1111`
and the `b &&& 128 = 0` test is the continuation-bit check. -/
def decode_varint_loop : List Nat → Nat → Nat → Nat → Except DbError (Nat × Nat)
  | [], _, _, _ => .error .decodeErr
  | b :: bs, result, shift, bytes_read =>
    if bytes_read + 1 = 9 then
      .ok (((result <<< shift) ||| b) % 2 ^ 64, bytes_read + 1)
    else
      let result2 := ((result <<< shift) ||| (b &&& 127)) % 2 ^ 64
      if b &&& 128 = 0 then
        .ok (result2, bytes_read + 1)
      else
        decode_varint_loop bs result2 (shift + 7) (bytes_read + 1)

/-- Embedding of `decode_varint`: returns the decoded value and the
number of bytes consumed, or a decoding error when the slice runs out. -/
def decode_varint (bytes : List Nat) : Except DbError (Nat × Nat) :=
  decode_varint_loop bytes 0 0 0

/-- Embedding of `get_type_definition`: serial type code (a u64) to
(DataType, byte width).  The Rust `match` is an equality dispatch on the
codes 0..6 with a parity-split default arm; the default arm computes
`(type_code - 12) / 2` resp. `(type_code - 13) / 2` with wrapping u64
subtraction, modelled as addition of 2 ^ 64 followed by reduction. -/
def get_type_definition (type_code : Nat) : DataType × Nat :=
  if type_code = 0 then (.Null, 0)
  else if type_code = 1 then (.Int8, 1)
  else if type_code = 2 then (.Int16, 2)
  else if type_code = 3 then (.Int24, 3)
  else if type_code = 4 then (.Int32, 4)
  else if type_code = 5 then (.Int48, 6)
  else if type_code = 6 then (.Int64, 8)
  else if type_code % 2 = 0 then (.Unknown, ((type_code + 2 ^ 64 - 12) % 2 ^ 64) / 2)
  else (.String, ((type_code + 2 ^ 64 - 13) % 2 ^ 64) / 2)

/-- A UTF-8 continuation byte (0x80..0xBF). -/
def contByte (c : Nat) : Bool := 128 ≤ c && c ≤ 191

/-- Embedding of the validation performed by `std::str::from_utf8`:
accepts exactly the well-formed UTF-8 byte sequences (no overlong
encodings, no surrogates, nothing above U+10FFFF). -/
def validUtf8 : List Nat → Bool
  | [] => true
  | b :: rest =>
    if b < 128 then validUtf8 rest
    else if b < 194 then false
    else if b < 224 then
      match rest with
      | c1 :: r => contByte c1 && validUtf8 r
      | [] => false
    else if b < 240 then
      match rest with
      | c1 :: c2 :: r =>
        (if b = 224 then 160 ≤ c1 && c1 ≤ 191
         else if b = 237 then 128 ≤ c1 && c1 ≤ 159
         else contByte c1) && contByte c2 && validUtf8 r
      | _ => false
    else if b < 245 then
      match rest with
      | c1 :: c2 :: c3 :: r =>
        (if b = 240 then 144 ≤ c1 && c1 ≤ 191
         else if b = 244 then 128 ≤ c1 && c1 ≤ 143
         else contByte c1) && contByte c2 && contByte c3 && validUtf8 r
      | _ => false
    else false

/-- Bytes `a..b` (half open) of a buffer: the value of the Rust slice
`&buf[a..b]` when that slice is in range. -/
def extractSlice (buf : List Nat) (a b : Nat) : List Nat := (buf.take b).drop a

/-- Rust slice expression `&buf[a..]`: panics (modelled as `.oob`) when
`a` exceeds the buffer length. -/
def sliceFrom (buf : List Nat) (a : Nat) : Except DbError (List Nat) :=
  if a ≤ buf.length then .ok (buf.drop a) else .error .oob

/-- Big-endian u16 read `u16::from_be_bytes([buf[i], buf[i+1]])`; the
two direct indexing operations panic (`.oob`) when out of range. -/
def readU16 (buf : List Nat) (i : Nat) : Except DbError Nat :=
  match buf.get? i, buf.get? (i + 1) with
  | some hi, some lo => .ok (hi * 256 + lo)
  | _, _ => .error .oob

/-- Interpretation of one byte as Rust `i8` (the `value_bytes[0] as i8`
plus identity `i8::from_be`). -/
def toI8 (b : Nat) : Int := if b < 128 then (b : Int) else (b : Int) - 256

/-- The record-header descriptor loop of `get_page`
(`while row_offset < header_end_offset { decode_varint(..) }`), with the
final value of the cursor `row_offset` returned alongside the decoded
descriptors.  `fuel` bounds the number of iterations; it is consumed
once per iteration and, since every successful varint decode consumes
at least one byte, the wrapper below supplies enough fuel that the
exhaustion branch is unreachable. -/
def read_typedefs_go (buf : List Nat) (endo : Nat) : Nat → Nat → Except DbError (List (DataType × Nat) × Nat)
  | 0, off =>
    if off < endo then .error .decodeErr else .ok ([], off)
  | fuel + 1, off =>
    if off < endo then
      if endo ≤ buf.length then
        match decode_varint (extractSlice buf off endo) with
        | .error e => .error e
        | .ok (content, o) =>
          match read_typedefs_go buf endo fuel (off + o) with
          | .error e => .error e
          | .ok (rest, fin) => .ok (get_type_definition content :: rest, fin)
      else .error .oob
    else .ok ([], off)

/-- Record-header descriptor loop from cursor `off` up to the header
end offset `endo`. -/
def read_typedefs (buf : List Nat) (off endo : Nat) : Except DbError (List (DataType × Nat) × Nat) :=
  read_typedefs_go buf endo (endo - off) off

/-- Decoding of a single column value at offset `off` with declared
byte width `w`: the slice `&buf[off..off+w]` (panic when out of range),
then the per-type arm of the `match` in `get_page`. -/
def decode_value (buf : List Nat) (off w : Nat) (t : DataType) : Except DbError DataValue :=
  if off + w ≤ buf.length then
    let value_bytes := extractSlice buf off (off + w)
    match t with
    | .String =>
      if validUtf8 value_bytes then .ok (.String value_bytes) else .error .decodeErr
    | .Int8 =>
      match value_bytes with
      | v :: _ => .ok (.Int (toI8 v))
      | [] => .error .oob
    | .Null => .ok .Null
    | _ => .ok .Unknown
  else .error .oob

/-- The value-reading loop of `get_page`: walks the type definitions in
header order, slicing each value at the running `values_offset` and
advancing by the declared width. -/
def read_values (buf : List Nat) : Nat → List (DataType × Nat) → Except DbError (List DataValue)
  | _, [] => .ok []
  | off, (t, w) :: rest =>
    match decode_value buf off w t with
    | .error e => .error e
    | .ok v =>
      match read_values buf (off + w) rest with
      | .error e => .error e
      | .ok vs => .ok (v :: vs)

/-- The intermediate quantities of one cell decode in `get_page`:
`o1`/`o2`/`o3` are the byte lengths of the three leading varints
(cell payload size, row id, record-header size), `r2` the offset at
which the header-size varint starts (so the record header begins at
`r2`), `header_end` the computed `header_end_offset`, `header_cursor`
the final value of `row_offset` after the descriptor loop, and `vals`
the decoded column values. -/
structure CellParts where
  cell_size : Nat
  o1 : Nat
  row_id : Nat
  o2 : Nat
  header_size : Nat
  o3 : Nat
  r2 : Nat
  header_end : Nat
  tds : List (DataType × Nat)
  header_cursor : Nat
  vals : List DataValue
deriving DecidableEq

/-- One iteration of the per-cell loop in `get_page`, starting from the
already header-adjusted cell offset `row_offset`: three varints (cell
payload size, row id, record-header size), the descriptor loop up to
`header_end_offset = row_offset + header_size` (a usize sum, reduced
modulo 2 ^ 64), then the column values starting at `header_end_offset`. -/
def decode_cell_parts (buf : List Nat) (row_offset : Nat) : Except DbError CellParts :=
  match sliceFrom buf row_offset with
  | .error e => .error e
  | .ok s0 =>
    match decode_varint s0 with
    | .error e => .error e
    | .ok (cell_size, o1) =>
      match sliceFrom buf (row_offset + o1) with
      | .error e => .error e
      | .ok s1 =>
        match decode_varint s1 with
        | .error e => .error e
        | .ok (row_id, o2) =>
          match sliceFrom buf (row_offset + o1 + o2) with
          | .error e => .error e
          | .ok s2 =>
            match decode_varint s2 with
            | .error e => .error e
            | .ok (header_size, o3) =>
              let r2 := row_offset + o1 + o2
              let header_end := (r2 + header_size) % 2 ^ 64
              match read_typedefs buf (r2 + o3) header_end with
              | .error e => .error e
              | .ok (tds, header_cursor) =>
                match read_values buf header_end tds with
                | .error e => .error e
                | .ok vals =>
                  .ok ⟨cell_size, o1, row_id, o2, header_size, o3, r2,
                       header_end, tds, header_cursor, vals⟩

/-- Decoding of one cell to its row of column values. -/
def decode_cell (buf : List Nat) (row_offset : Nat) : Except DbError (List DataValue) :=
  match decode_cell_parts buf row_offset with
  | .error e => .error e
  | .ok p => .ok p.vals

/-- The `for i in 0..num_of_cells` loop of `get_page`: reads the i-th
16-bit cell pointer at `8 + 2 * i` (the index arithmetic is u16, hence
the reduction modulo 2 ^ 16), adjusts it by `start_offset` with
wrapping u16 subtraction, and decodes the cell. -/
def decode_cells_go (buf : List Nat) (start_offset : Nat) : Nat → Nat → Except DbError (List (List DataValue))
  | _, 0 => .ok []
  | i, remaining + 1 =>
    match readU16 buf (8 + (2 * i) % 2 ^ 16) with
    | .error e => .error e
    | .ok cell_start_offset =>
      match decode_cell buf ((cell_start_offset + 2 ^ 16 - start_offset) % 2 ^ 16) with
      | .error e => .error e
      | .ok row =>
        match decode_cells_go buf start_offset (i + 1) remaining with
        | .error e => .error e
        | .ok rows => .ok (row :: rows)

/-- Decoding of a fetched page buffer: cell count from bytes 3 and 4,
then all cells in pointer-array order. -/
def decode_page (buf : List Nat) (start_offset : Nat) : Except DbError (List (List DataValue)) :=
  match readU16 buf 3 with
  | .error e => .error e
  | .ok num_of_cells => decode_cells_go buf start_offset 0 num_of_cells

/-- The I/O half of `get_page`: `start_offset` is 100 for page 1 and 0
otherwise; the buffer length is the u16 difference
`page_size - start_offset`, the seek offset the u16 expression
`(page_number - 1) * page_size + start_offset`, and `read_exact`
fails (`.ioErr`) when the file cannot supply that many bytes there.
All three u16 operations wrap, hence the reductions modulo 2 ^ 16. -/
def fetch_page (file : List Nat) (page_size page_number : Nat) : Except DbError (List Nat) :=
  let start_offset := if page_number = 1 then 100 else 0
  let page_index := (page_number + 2 ^ 16 - 1) % 2 ^ 16
  let buf_len := (page_size + 2 ^ 16 - start_offset) % 2 ^ 16
  let seek_offset := (page_index * page_size + start_offset) % 2 ^ 16
  if seek_offset + buf_len ≤ file.length then
    .ok (extractSlice file seek_offset (seek_offset + buf_len))
  else .error .ioErr

/-- The container handle: cached page size plus the (read-only) file
contents standing in for the file path. -/
structure Db where
  page_size : Nat
  file : List Nat

/-- Embedding of `Db::get_page`: fetch the raw page bytes, then decode
them as a leaf page, adjusting cell pointers by the same
`start_offset`. -/
def Db.get_page (db : Db) (page_number : Nat) : Except DbError (List (List DataValue)) :=
  match fetch_page db.file db.page_size page_number with
  | .error e => .error e
  | .ok bytes_to_read =>
    decode_page bytes_to_read (if page_number = 1 then 100 else 0)

/-- A catalog entry: table name (as its UTF-8 bytes) and root page
number (an i8 in the source, modelled as the corresponding `Int`). -/
structure DbTableConfig where
  table_name : List Nat
  page_number : Int
deriving DecidableEq

/-- The per-row body of the `filter_map` in `get_table_configs`:
column 2 as the table name (empty unless a Text value), column 3 as the
root page number (0 unless an integer value); rows with empty name or
zero page number are dropped. -/
def configOfRow (row : List DataValue) : Option DbTableConfig :=
  let table_name := match row.get? 2 with
    | some (DataValue.String val) => val
    | _ => []
  let page_number := match row.get? 3 with
    | some (DataValue.Int val) => val
    | _ => 0
  if table_name = [] ∨ page_number = 0 then none
  else some ⟨table_name, page_number⟩

/-- Embedding of `Db::get_table_configs`: decode page 1 and keep the
surviving catalog entries in row order. -/
def Db.get_table_configs (db : Db) : Except DbError (List DbTableConfig) :=
  match Db.get_page db 1 with
  | .error e => .error e
  | .ok rows => .ok (rows.filterMap configOfRow)

/-- Embedding of `Db::get_table_names`. -/
def Db.get_table_names (db : Db) : Except DbError (List (List Nat)) :=
  match Db.get_table_configs db with
  | .error e => .error e
  | .ok table_configs => .ok (table_configs.map (fun config => config.table_name))

/-- Rust cast `i8 as u16` (sign extension into 16 bits). -/
def i8_as_u16 (v : Int) : Nat := (v.emod (2 ^ 16)).toNat

/-- Embedding of `Db::get_table_page`: look the name up in the catalog
(case-sensitive exact equality) and decode the root page of the match;
absent names give the not-found error. -/
def Db.get_table_page (db : Db) (table_name : List Nat) : Except DbError (List (List DataValue)) :=
  match Db.get_table_configs db with
  | .error e => .error e
  | .ok configs =>
    match configs.find? (fun config => config.table_name == table_name) with
    | none => .error .notFound
    | some config => Db.get_page db (i8_as_u16 config.page_number)

/-! ## Lemmas about the varint decoder -/

lemma decode_varint_loop_err (bs : List Nat) : ∀ r s k : Nat, k ≤ 8 →
    (decode_varint_loop bs r s k = .error .decodeErr ↔
      (bs.length ≤ 8 - k ∧ ∀ b ∈ bs, b &&& 128 ≠ 0)) := by
  induction bs with
  | nil =>
    intro r s k hk
    simp [decode_varint_loop]
  | cons b bs ih =>
    intro r s k hk
    simp only [decode_varint_loop]
    by_cases h9 : k + 1 = 9
    · rw [if_pos h9]
      simp only [List.length_cons]
      constructor
      · intro h; exact absurd h (by simp)
      · rintro ⟨hlen, -⟩; omega
    · rw [if_neg h9]
      by_cases hb : b &&& 128 = 0
      · rw [if_pos hb]
        constructor
        · intro h; exact absurd h (by simp)
        · rintro ⟨-, hall⟩; exact absurd hb (hall b (by simp))
      · rw [if_neg hb, ih _ _ (k + 1) (by omega)]
        simp only [List.length_cons, List.forall_mem_cons]
        constructor
        · rintro ⟨h1, h2⟩; exact ⟨by omega, hb, h2⟩
        · rintro ⟨h1, -, h3⟩; exact ⟨by omega, h3⟩

lemma decode_varint_loop_ok (bs : List Nat) : ∀ r s k v n : Nat, k ≤ 8 →
    decode_varint_loop bs r s k = .ok (v, n) →
    k < n ∧ n ≤ 9 ∧ n ≤ k + bs.length := by
  induction bs with
  | nil =>
    intro r s k v n hk h
    simp [decode_varint_loop] at h
  | cons b bs ih =>
    intro r s k v n hk h
    simp only [decode_varint_loop] at h
    by_cases h9 : k + 1 = 9
    · rw [if_pos h9] at h
      simp only [Except.ok.injEq, Prod.mk.injEq] at h
      simp only [List.length_cons]
      omega
    · rw [if_neg h9] at h
      by_cases hb : b &&& 128 = 0
      · rw [if_pos hb] at h
        simp only [Except.ok.injEq, Prod.mk.injEq] at h
        simp only [List.length_cons]
        omega
      · rw [if_neg hb] at h
        have := ih _ _ (k + 1) v n (by omega) h
        simp only [List.length_cons]
        omega

lemma decode_varint_ok_bounds (bs : List Nat) (v n : Nat)
    (h : decode_varint bs = .ok (v, n)) : 1 ≤ n ∧ n ≤ 9 ∧ n ≤ bs.length := by
  have := decode_varint_loop_ok bs 0 0 0 v n (by omega) h
  omega

lemma lor_mod_two_pow (x y n : Nat) :
    (x ||| y) % 2 ^ n = (x % 2 ^ n) ||| (y % 2 ^ n) := by
  apply Nat.eq_of_testBit_eq
  intro i
  by_cases h : i < n <;>
    simp [Nat.testBit_mod_two_pow, Nat.testBit_lor, h]

lemma shift56_lor_mod256 (x b : Nat) (hb : b < 256) :
    (((x <<< 56) ||| b) % 2 ^ 64) % 256 = b := by
  have h1 : (256 : Nat) ∣ 2 ^ 64 := ⟨2 ^ 56, by norm_num⟩
  rw [Nat.mod_mod_of_dvd _ h1]
  have h256 : (256 : Nat) = 2 ^ 8 := by norm_num
  rw [h256, lor_mod_two_pow]
  have hx : (x <<< 56) % 2 ^ 8 = 0 := by
    rw [Nat.shiftLeft_eq]
    have h56 : (2 : Nat) ^ 56 = 2 ^ 48 * 2 ^ 8 := by norm_num
    rw [h56, ← Nat.mul_assoc]
    exact Nat.mul_mod_left _ _
  rw [hx]
  have : b % 2 ^ 8 = b := Nat.mod_eq_of_lt (by omega)
  rw [this, Nat.zero_or]

lemma decode_varint_loop_step9 (b : Nat) (rest : List Nat) (r s : Nat) :
    decode_varint_loop (b :: rest) r s 8 = .ok (((r <<< s) ||| b) % 2 ^ 64, 9) := by
  simp [decode_varint_loop]

lemma decode_varint_loop_step_cont (b : Nat) (bs : List Nat) (r s k : Nat)
    (hk : k + 1 ≠ 9) (hb : b &&& 128 ≠ 0) :
    decode_varint_loop (b :: bs) r s k =
      decode_varint_loop bs (((r <<< s) ||| (b &&& 127)) % 2 ^ 64) (s + 7) (k + 1) := by
  simp [decode_varint_loop, hk, hb]

/-! ## Lemmas about the record-header descriptor loop -/

lemma extractSlice_length (buf : List Nat) (a b : Nat) (h : b ≤ buf.length) :
    (extractSlice buf a b).length = b - a := by
  simp [extractSlice, Nat.min_eq_left h]

lemma read_typedefs_go_exact (buf : List Nat) (endo : Nat) :
    ∀ fuel off tds fin, off ≤ endo → endo - off ≤ fuel →
      read_typedefs_go buf endo fuel off = .ok (tds, fin) → fin = endo := by
  intro fuel
  induction fuel with
  | zero =>
    intro off tds fin hle hfuel h
    simp only [read_typedefs_go] at h
    rw [if_neg (by omega)] at h
    simp only [Except.ok.injEq, Prod.mk.injEq] at h
    omega
  | succ fuel ih =>
    intro off tds fin hle hfuel h
    simp only [read_typedefs_go] at h
    by_cases hoff : off < endo
    · rw [if_pos hoff] at h
      by_cases hlen : endo ≤ buf.length
      · rw [if_pos hlen] at h
        split at h
        · exact absurd h (by simp)
        · rename_i content o hdv
          split at h
          · exact absurd h (by simp)
          · rename_i rest fin2 hrec
            simp only [Except.ok.injEq, Prod.mk.injEq] at h
            obtain ⟨-, hfin⟩ := h
            have hb := decode_varint_ok_bounds _ _ _ hdv
            have hslice := extractSlice_length buf off endo hlen
            subst hfin
            exact ih (off + o) rest fin2 (by omega) (by omega) hrec
      · rw [if_neg hlen] at h
        exact absurd h (by simp)
    · rw [if_neg hoff] at h
      simp only [Except.ok.injEq, Prod.mk.injEq] at h
      omega

lemma read_typedefs_exact (buf : List Nat) (off endo : Nat)
    (tds : List (DataType × Nat)) (fin : Nat) (hle : off ≤ endo)
    (h : read_typedefs buf off endo = .ok (tds, fin)) : fin = endo :=
  read_typedefs_go_exact buf endo (endo - off) off tds fin hle (Nat.le_refl _) h

/-! ## Lemmas about the value-reading loop -/

/-- Sum of the declared byte widths of a descriptor list. -/
def widthSum (ds : List (DataType × Nat)) : Nat := (ds.map Prod.snd).sum

/-- Offset at which the value of column `i` starts when the values
begin at `off`: the widths of the earlier columns accumulate. -/
def columnOffset (off : Nat) (ds : List (DataType × Nat)) (i : Nat) : Nat :=
  off + widthSum (ds.take i)

@[simp] lemma widthSum_nil : widthSum [] = 0 := rfl

@[simp] lemma widthSum_cons (d : DataType × Nat) (ds : List (DataType × Nat)) :
    widthSum (d :: ds) = d.2 + widthSum ds := by
  simp [widthSum]

lemma get_type_definition_int8_width (c w : Nat)
    (h : get_type_definition c = (.Int8, w)) : w = 1 := by
  unfold get_type_definition at h
  split_ifs at h <;> simp_all

lemma get_type_definition_null_width (c w : Nat)
    (h : get_type_definition c = (.Null, w)) : w = 0 := by
  unfold get_type_definition at h
  split_ifs at h <;> simp_all

lemma decode_value_ok_cases (buf : List Nat) (off w : Nat) (t : DataType) (v : DataValue)
    (h : decode_value buf off w t = .ok v) :
    off + w ≤ buf.length ∧
    (t = .String → validUtf8 (extractSlice buf off (off + w)) = true ∧
      v = .String (extractSlice buf off (off + w))) ∧
    (t = .Int8 → v = .Int (toI8 ((extractSlice buf off (off + w)).headD 0))) ∧
    (t = .Null → v = .Null) ∧
    (t ≠ .String → t ≠ .Int8 → t ≠ .Null → v = .Unknown) := by
  unfold decode_value at h
  by_cases hb : off + w ≤ buf.length
  · rw [if_pos hb] at h
    refine ⟨hb, ?_, ?_, ?_, ?_⟩
    · rintro rfl
      dsimp only at h
      split at h
      · simp only [Except.ok.injEq] at h
        exact ⟨by assumption, h.symm⟩
      · exact absurd h (by simp)
    · rintro rfl
      dsimp only at h
      split at h
      · rename_i v0 rest heq
        simp only [Except.ok.injEq] at h
        rw [← h, heq]
        simp
      · exact absurd h (by simp)
    · rintro rfl
      dsimp only at h
      simp only [Except.ok.injEq] at h
      exact h.symm
    · intro hs hi hn
      cases t <;> simp_all
  · rw [if_neg hb] at h
    exact absurd h (by simp)

lemma read_values_length (buf : List Nat) :
    ∀ ds off vals, read_values buf off ds = .ok vals → vals.length = ds.length := by
  intro ds
  induction ds with
  | nil =>
    intro off vals h
    simp only [read_values, Except.ok.injEq] at h
    simp [← h]
  | cons d ds ih =>
    intro off vals h
    obtain ⟨t, w⟩ := d
    simp only [read_values] at h
    split at h
    · exact absurd h (by simp)
    · rename_i v hv
      split at h
      · exact absurd h (by simp)
      · rename_i vs hvs
        simp only [Except.ok.injEq] at h
        rw [← h]
        simp [ih _ _ hvs]

lemma read_values_spec (buf : List Nat) :
    ∀ ds off vals, read_values buf off ds = .ok vals →
      ∀ i t w, ds.get? i = some (t, w) →
        columnOffset off ds i + w ≤ buf.length ∧
        (t = .String →
          validUtf8 (extractSlice buf (columnOffset off ds i) (columnOffset off ds i + w)) = true ∧
          vals.get? i = some (.String (extractSlice buf (columnOffset off ds i) (columnOffset off ds i + w)))) ∧
        (t = .Int8 →
          vals.get? i = some (.Int (toI8 ((extractSlice buf (columnOffset off ds i) (columnOffset off ds i + w)).headD 0)))) ∧
        (t = .Null → vals.get? i = some .Null) ∧
        (t ≠ .String → t ≠ .Int8 → t ≠ .Null → vals.get? i = some .Unknown) := by
  intro ds
  induction ds with
  | nil =>
    intro off vals h i t w hi
    simp at hi
  | cons d ds ih =>
    intro off vals h i t w hi
    obtain ⟨t0, w0⟩ := d
    simp only [read_values] at h
    split at h
    · exact absurd h (by simp)
    · rename_i v hv
      split at h
      · exact absurd h (by simp)
      · rename_i vs hvs
        simp only [Except.ok.injEq] at h
        subst h
        cases i with
        | zero =>
          simp only [List.get?_cons_zero, Option.some.injEq, Prod.mk.injEq] at hi
          obtain ⟨rfl, rfl⟩ := hi
          have hcol : columnOffset off ((t0, w0) :: ds) 0 = off := by
            simp [columnOffset]
          rw [hcol]
          have hc := decode_value_ok_cases buf off w0 t0 v hv
          obtain ⟨hb, hs, hn8, hnul, hunk⟩ := hc
          refine ⟨hb, ?_, ?_, ?_, ?_⟩
          · intro ht; obtain ⟨h1, h2⟩ := hs ht; exact ⟨h1, by simp [h2]⟩
          · intro ht; simp [hn8 ht]
          · intro ht; simp [hnul ht]
          · intro h1 h2 h3; simp [hunk h1 h2 h3]
        | succ i =>
          simp only [List.get?_cons_succ] at hi
          have hcol : ∀ j : Nat, columnOffset off ((t0, w0) :: ds) (j + 1) =
              columnOffset (off + w0) ds j := by
            intro j
            simp [columnOffset, Nat.add_assoc]
          rw [hcol]
          simpa using ih (off + w0) vs hvs i t w hi

lemma read_values_append (buf : List Nat) :
    ∀ l1 l2 off,
      read_values buf off (l1 ++ l2) =
        match read_values buf off l1 with
        | .error e => .error e
        | .ok v1 =>
          match read_values buf (off + widthSum l1) l2 with
          | .error e => .error e
          | .ok v2 => .ok (v1 ++ v2) := by
  intro l1
  induction l1 with
  | nil =>
    intro l2 off
    simp only [List.nil_append, read_values, widthSum_nil, Nat.add_zero]
    cases read_values buf off l2 <;> simp
  | cons d l1 ih =>
    intro l2 off
    obtain ⟨t, w⟩ := d
    simp only [List.cons_append, read_values, List.append_eq]
    cases hdv : decode_value buf off w t with
    | error e => simp
    | ok v =>
      rw [ih l2 (off + w)]
      simp only [widthSum_cons]
      rw [show off + w + widthSum l1 = off + (w + widthSum l1) by omega]
      cases read_values buf (off + w) l1 with
      | error e => simp
      | ok v1 =>
        cases read_values buf (off + (w + widthSum l1)) l2 <;> simp

lemma read_values_strings_valid (buf : List Nat) :
    ∀ ds off vals, read_values buf off ds = .ok vals →
      ∀ bs, DataValue.String bs ∈ vals → validUtf8 bs = true := by
  intro ds
  induction ds with
  | nil =>
    intro off vals h bs hmem
    simp only [read_values, Except.ok.injEq] at h
    rw [← h] at hmem
    simp at hmem
  | cons d ds ih =>
    intro off vals h bs hmem
    obtain ⟨t, w⟩ := d
    simp only [read_values] at h
    split at h
    · exact absurd h (by simp)
    · rename_i v hv
      split at h
      · exact absurd h (by simp)
      · rename_i vs hvs
        simp only [Except.ok.injEq] at h
        rw [← h] at hmem
        rcases List.mem_cons.1 hmem with hhd | htl
        · have hc := decode_value_ok_cases buf off w t v hv
          obtain ⟨-, hs, hn8, hnul, hunk⟩ := hc
          cases t with
          | String =>
            obtain ⟨h1, h2⟩ := hs rfl
            rw [h2] at hhd
            simp only [DataValue.String.injEq] at hhd
            rw [hhd]
            exact h1
          | Int8 => rw [hn8 rfl] at hhd; exact absurd hhd (by simp)
          | Null => rw [hnul rfl] at hhd; exact absurd hhd (by simp)
          | Int16 => rw [hunk (by simp) (by simp) (by simp)] at hhd; exact absurd hhd (by simp)
          | Int24 => rw [hunk (by simp) (by simp) (by simp)] at hhd; exact absurd hhd (by simp)
          | Int32 => rw [hunk (by simp) (by simp) (by simp)] at hhd; exact absurd hhd (by simp)
          | Int48 => rw [hunk (by simp) (by simp) (by simp)] at hhd; exact absurd hhd (by simp)
          | Int64 => rw [hunk (by simp) (by simp) (by simp)] at hhd; exact absurd hhd (by simp)
          | Unknown => rw [hunk (by simp) (by simp) (by simp)] at hhd; exact absurd hhd (by simp)
        · exact ih (off + w) vs hvs bs htl

/-! ## Inversion lemmas for the cell and page decoders -/

lemma decode_cell_parts_inv (buf : List Nat) (ro : Nat) (p : CellParts)
    (h : decode_cell_parts buf ro = .ok p) :
    read_typedefs buf (p.r2 + p.o3) p.header_end = .ok (p.tds, p.header_cursor) ∧
    p.header_end = (p.r2 + p.header_size) % 2 ^ 64 ∧
    read_values buf p.header_end p.tds = .ok p.vals := by
  unfold decode_cell_parts at h
  split at h
  · exact absurd h (by simp)
  · split at h
    · exact absurd h (by simp)
    · split at h
      · exact absurd h (by simp)
      · split at h
        · exact absurd h (by simp)
        · split at h
          · exact absurd h (by simp)
          · split at h
            · exact absurd h (by simp)
            · dsimp only at h
              split at h
              · exact absurd h (by simp)
              · rename_i tds hcur htd
                split at h
                · exact absurd h (by simp)
                · rename_i vals hval
                  simp only [Except.ok.injEq] at h
                  subst h
                  exact ⟨htd, rfl, hval⟩

lemma decode_cell_ok (buf : List Nat) (ro : Nat) (row : List DataValue)
    (h : decode_cell buf ro = .ok row) :
    ∃ p, decode_cell_parts buf ro = .ok p ∧ p.vals = row := by
  unfold decode_cell at h
  split at h
  · exact absurd h (by simp)
  · rename_i p hp
    simp only [Except.ok.injEq] at h
    exact ⟨p, hp, h⟩

lemma decode_cells_go_mem (buf : List Nat) (s : Nat) :
    ∀ k i rows, decode_cells_go buf s i k = .ok rows →
      ∀ row ∈ rows, ∃ ro, decode_cell buf ro = .ok row := by
  intro k
  induction k with
  | zero =>
    intro i rows h row hmem
    simp only [decode_cells_go, Except.ok.injEq] at h
    rw [← h] at hmem
    simp at hmem
  | succ k ih =>
    intro i rows h row hmem
    simp only [decode_cells_go] at h
    split at h
    · exact absurd h (by simp)
    · rename_i ptr hptr
      split at h
      · exact absurd h (by simp)
      · rename_i r hr
        split at h
        · exact absurd h (by simp)
        · rename_i rs hrs
          simp only [Except.ok.injEq] at h
          rw [← h] at hmem
          rcases List.mem_cons.1 hmem with rfl | htl
          · exact ⟨_, hr⟩
          · exact ih (i + 1) rs hrs row htl

lemma get_page_rows (db : Db) (n : Nat) (rows : List (List DataValue))
    (h : Db.get_page db n = .ok rows) :
    ∃ buf ncells, fetch_page db.file db.page_size n = .ok buf ∧
      decode_cells_go buf (if n = 1 then 100 else 0) 0 ncells = .ok rows := by
  unfold Db.get_page at h
  split at h
  · exact absurd h (by simp)
  · rename_i buf hbuf
    unfold decode_page at h
    split at h
    · exact absurd h (by simp)
    · rename_i nc hnc
      exact ⟨buf, nc, hbuf, h⟩

/-! ## Safety precondition for page decoding -/

lemma decode_varint_loop_error_eq (bs : List Nat) :
    ∀ r s k e, decode_varint_loop bs r s k = .error e → e = .decodeErr := by
  induction bs with
  | nil =>
    intro r s k e h
    simp only [decode_varint_loop, Except.error.injEq] at h
    exact h.symm
  | cons b bs ih =>
    intro r s k e h
    simp only [decode_varint_loop] at h
    split at h
    · exact absurd h (by simp)
    · split at h
      · exact absurd h (by simp)
      · exact ih _ _ _ _ h

lemma decode_varint_error_eq (bs : List Nat) (e : DbError)
    (h : decode_varint bs = .error e) : e = .decodeErr :=
  decode_varint_loop_error_eq bs 0 0 0 e h

/-- Per-column bounds check mirroring the value-reading loop: every
value slice must lie inside the buffer and an Int8 descriptor must have
a positive width (its arm indexes the first byte of its slice). -/
def values_safe (buf : List Nat) : Nat → List (DataType × Nat) → Bool
  | _, [] => true
  | off, (t, w) :: rest =>
    decide (off + w ≤ buf.length) &&
    (match t with
     | DataType.Int8 => decide (1 ≤ w)
     | _ => true) &&
    values_safe buf (off + w) rest

/-- Bounds check mirroring one cell decode: the adjusted cell offset
must lie inside the buffer, the record-header end must lie inside the
buffer whenever the descriptor loop runs, and every derived value
offset must stay in bounds. -/
def cell_safe (buf : List Nat) (ro : Nat) : Bool :=
  decide (ro ≤ buf.length) &&
  match decode_varint (buf.drop ro) with
  | .error _ => true
  | .ok (_, o1) =>
    match decode_varint (buf.drop (ro + o1)) with
    | .error _ => true
    | .ok (_, o2) =>
      match decode_varint (buf.drop (ro + o1 + o2)) with
      | .error _ => true
      | .ok (header_size, o3) =>
        decide (ro + o1 + o2 + o3 < (ro + o1 + o2 + header_size) % 2 ^ 64 →
          (ro + o1 + o2 + header_size) % 2 ^ 64 ≤ buf.length) &&
        match read_typedefs buf (ro + o1 + o2 + o3) ((ro + o1 + o2 + header_size) % 2 ^ 64) with
        | .error _ => true
        | .ok (tds, _) => values_safe buf ((ro + o1 + o2 + header_size) % 2 ^ 64) tds

/-- The precondition of the claim: the page header and cell pointers
are readable, the buffer holds bytes, every cell pointer is at least
`start_offset` (so the u16 subtraction cannot underflow), and every
cell, header and value offset derived from the pointers lies within the
fetched buffer. -/
def page_safe (buf : List Nat) (start_offset : Nat) : Bool :=
  decide (5 ≤ buf.length) && buf.all (fun b => decide (b < 256)) &&
  match readU16 buf 3 with
  | .error _ => false
  | .ok n =>
    (List.range n).all fun i =>
      match readU16 buf (8 + (2 * i) % 2 ^ 16) with
      | .error _ => false
      | .ok p =>
        decide (start_offset ≤ p) &&
        cell_safe buf ((p + 2 ^ 16 - start_offset) % 2 ^ 16)

lemma decode_value_no_oob (buf : List Nat) (off w : Nat) (t : DataType)
    (hb : off + w ≤ buf.length) (hint : t = .Int8 → 1 ≤ w) :
    decode_value buf off w t ≠ .error .oob := by
  unfold decode_value
  rw [if_pos hb]
  dsimp only
  split
  · split <;> simp
  · have hw := hint rfl
    have hlen : (extractSlice buf off (off + w)).length = w := by
      rw [extractSlice_length buf off (off + w) hb]
      omega
    split
    · simp
    · rename_i heq2
      rw [heq2] at hlen
      simp at hlen
      omega
  · simp
  · simp

lemma values_safe_no_oob (buf : List Nat) :
    ∀ ds off, values_safe buf off ds = true →
      read_values buf off ds ≠ .error .oob := by
  intro ds
  induction ds with
  | nil =>
    intro off h
    simp [read_values]
  | cons d ds ih =>
    intro off h
    obtain ⟨t, w⟩ := d
    simp only [values_safe, Bool.and_eq_true, decide_eq_true_eq] at h
    obtain ⟨⟨hb, hmid⟩, hrest⟩ := h
    have hint : t = .Int8 → 1 ≤ w := by
      intro ht
      subst ht
      simpa using hmid
    have hnv := decode_value_no_oob buf off w t hb hint
    simp only [read_values]
    cases hdv : decode_value buf off w t with
    | error e =>
      intro hc
      dsimp only at hc
      simp only [Except.error.injEq] at hc
      subst hc
      exact hnv hdv
    | ok v =>
      have hnr := ih (off + w) hrest
      cases hrv : read_values buf (off + w) ds with
      | error e =>
        intro hc
        dsimp only at hc
        simp only [Except.error.injEq] at hc
        subst hc
        exact hnr hrv
      | ok vs => simp

lemma read_typedefs_go_no_oob (buf : List Nat) (endo : Nat) :
    ∀ fuel off, (off < endo → endo ≤ buf.length) →
      read_typedefs_go buf endo fuel off ≠ .error .oob := by
  intro fuel
  induction fuel with
  | zero =>
    intro off hcond
    simp only [read_typedefs_go]
    split <;> simp
  | succ fuel ih =>
    intro off hcond
    simp only [read_typedefs_go]
    by_cases hoff : off < endo
    · rw [if_pos hoff, if_pos (hcond hoff)]
      cases hdv : decode_varint (extractSlice buf off endo) with
      | error e =>
        have := decode_varint_error_eq _ _ hdv
        subst this
        simp
      | ok p =>
        obtain ⟨content, o⟩ := p
        dsimp only
        have hrec := ih (off + o) (fun _ => hcond hoff)
        cases hr : read_typedefs_go buf endo fuel (off + o) with
        | error e =>
          intro hc
          dsimp only at hc
          simp only [Except.error.injEq] at hc
          subst hc
          exact hrec hr
        | ok q =>
          obtain ⟨rest, fin⟩ := q
          simp
    · rw [if_neg hoff]
      simp

lemma read_typedefs_no_oob (buf : List Nat) (off endo : Nat)
    (hcond : off < endo → endo ≤ buf.length) :
    read_typedefs buf off endo ≠ .error .oob :=
  read_typedefs_go_no_oob buf endo (endo - off) off hcond

lemma cell_safe_no_oob (buf : List Nat) (ro : Nat) (h : cell_safe buf ro = true) :
    decode_cell buf ro ≠ .error .oob := by
  unfold cell_safe at h
  simp only [Bool.and_eq_true, decide_eq_true_eq] at h
  obtain ⟨hro, h⟩ := h
  unfold decode_cell decode_cell_parts
  have hs0 : sliceFrom buf ro = .ok (buf.drop ro) := by simp [sliceFrom, hro]
  rw [hs0]
  dsimp only
  cases hdv1 : decode_varint (buf.drop ro) with
  | error e =>
    have he := decode_varint_error_eq _ _ hdv1
    subst he
    simp
  | ok p1 =>
    obtain ⟨cs, o1⟩ := p1
    rw [hdv1] at h
    dsimp only at h ⊢
    have hb1 := decode_varint_ok_bounds _ _ _ hdv1
    have hr1 : ro + o1 ≤ buf.length := by
      have := hb1.2.2
      rw [List.length_drop] at this
      omega
    have hs1 : sliceFrom buf (ro + o1) = .ok (buf.drop (ro + o1)) := by
      simp [sliceFrom, hr1]
    rw [hs1]
    dsimp only
    cases hdv2 : decode_varint (buf.drop (ro + o1)) with
    | error e =>
      have he := decode_varint_error_eq _ _ hdv2
      subst he
      simp
    | ok p2 =>
      obtain ⟨rid, o2⟩ := p2
      rw [hdv2] at h
      dsimp only at h ⊢
      have hb2 := decode_varint_ok_bounds _ _ _ hdv2
      have hr2 : ro + o1 + o2 ≤ buf.length := by
        have := hb2.2.2
        rw [List.length_drop] at this
        omega
      have hs2 : sliceFrom buf (ro + o1 + o2) = .ok (buf.drop (ro + o1 + o2)) := by
        simp [sliceFrom, hr2]
      rw [hs2]
      dsimp only
      cases hdv3 : decode_varint (buf.drop (ro + o1 + o2)) with
      | error e =>
        have he := decode_varint_error_eq _ _ hdv3
        subst he
        simp
      | ok p3 =>
        obtain ⟨hsz, o3⟩ := p3
        rw [hdv3] at h
        dsimp only at h ⊢
        simp only [Bool.and_eq_true, decide_eq_true_eq] at h
        obtain ⟨hhe, h⟩ := h
        have hnt := read_typedefs_no_oob buf (ro + o1 + o2 + o3)
          ((ro + o1 + o2 + hsz) % 2 ^ 64) hhe
        cases htd : read_typedefs buf (ro + o1 + o2 + o3) ((ro + o1 + o2 + hsz) % 2 ^ 64) with
        | error e =>
          intro hc
          dsimp only at hc
          simp only [Except.error.injEq] at hc
          subst hc
          exact hnt htd
        | ok q =>
          obtain ⟨tds, hcur⟩ := q
          rw [htd] at h
          dsimp only at h ⊢
          have hnv := values_safe_no_oob buf tds ((ro + o1 + o2 + hsz) % 2 ^ 64) h
          cases hrv : read_values buf ((ro + o1 + o2 + hsz) % 2 ^ 64) tds with
          | error e =>
            intro hc
            dsimp only at hc
            simp only [Except.error.injEq] at hc
            subst hc
            exact hnv hrv
          | ok vals => simp

lemma decode_cells_go_no_oob (buf : List Nat) (s n : Nat)
    (hcells : ∀ i, i < n → ∃ p, readU16 buf (8 + (2 * i) % 2 ^ 16) = .ok p ∧
      s ≤ p ∧ cell_safe buf ((p + 2 ^ 16 - s) % 2 ^ 16) = true) :
    ∀ k i, i + k = n → decode_cells_go buf s i k ≠ .error .oob := by
  intro k
  induction k with
  | zero =>
    intro i hi
    simp [decode_cells_go]
  | succ k ih =>
    intro i hi
    simp only [decode_cells_go]
    obtain ⟨p, hp, hsp, hcs⟩ := hcells i (by omega)
    rw [hp]
    dsimp only
    have hnc := cell_safe_no_oob buf ((p + 2 ^ 16 - s) % 2 ^ 16) hcs
    cases hdc : decode_cell buf ((p + 2 ^ 16 - s) % 2 ^ 16) with
    | error e =>
      intro hc
      dsimp only at hc
      simp only [Except.error.injEq] at hc
      subst hc
      exact hnc hdc
    | ok row =>
      have hrec := ih (i + 1) (by omega)
      cases hr : decode_cells_go buf s (i + 1) k with
      | error e =>
        intro hc
        dsimp only at hc
        simp only [Except.error.injEq] at hc
        subst hc
        exact hrec hr
      | ok rows => simp

lemma page_safe_no_oob (buf : List Nat) (s : Nat) (h : page_safe buf s = true) :
    decode_page buf s ≠ .error .oob := by
  unfold page_safe at h
  simp only [Bool.and_eq_true] at h
  obtain ⟨-, h⟩ := h
  unfold decode_page
  cases hn : readU16 buf 3 with
  | error e =>
    rw [hn] at h
    simp at h
  | ok n =>
    rw [hn] at h
    dsimp only at h ⊢
    apply decode_cells_go_no_oob buf s n ?_ n 0 (by omega)
    intro i hi
    have hall := List.all_eq_true.1 h i (List.mem_range.2 hi)
    cases hp : readU16 buf (8 + (2 * i) % 2 ^ 16) with
    | error e =>
      rw [hp] at hall
      simp at hall
    | ok p =>
      rw [hp] at hall
      dsimp only at hall
      simp only [Bool.and_eq_true, decide_eq_true_eq] at hall
      exact ⟨p, rfl, hall.1, hall.2⟩

/-! ## Catalog helpers -/

/-- The table name of a decoded catalog row as the claim describes it:
column index 2, empty unless that column is a Text value. -/
def rowName (row : List DataValue) : List Nat :=
  match row.get? 2 with
  | some (DataValue.String val) => val
  | _ => []

/-- The root page number of a decoded catalog row as the claim
describes it: column index 3, zero unless that column is an integer
value. -/
def rowPage (row : List DataValue) : Int :=
  match row.get? 3 with
  | some (DataValue.Int val) => val
  | _ => 0

/-- A catalog row survives filtering exactly when its name is nonempty
and its root page number nonzero. -/
def keepRow (row : List DataValue) : Bool :=
  !(rowName row == []) && !(rowPage row == 0)

lemma configOfRow_eq (row : List DataValue) :
    configOfRow row =
      if rowName row = [] ∨ rowPage row = 0 then none
      else some ⟨rowName row, rowPage row⟩ := rfl

lemma keepRow_iff (row : List DataValue) :
    keepRow row = true ↔ ¬(rowName row = [] ∨ rowPage row = 0) := by
  simp [keepRow, not_or]

lemma filterMap_configOfRow (rows : List (List DataValue)) :
    rows.filterMap configOfRow =
      (rows.filter keepRow).map (fun r => ⟨rowName r, rowPage r⟩) := by
  induction rows with
  | nil => simp
  | cons r rows ih =>
    rw [List.filterMap_cons, List.filter_cons]
    by_cases hk : keepRow r = true
    · have hcond := (keepRow_iff r).1 hk
      rw [configOfRow_eq, if_neg hcond, if_pos hk, List.map_cons, ih]
    · have hcond : rowName r = [] ∨ rowPage r = 0 := by
        by_contra hc
        exact hk ((keepRow_iff r).2 hc)
      rw [configOfRow_eq, if_pos hcond, ih]
      simp only [Bool.not_eq_true] at hk
      rw [hk]
      simp

lemma get_table_configs_fetch_congr (db1 db2 : Db)
    (hfetch : fetch_page db2.file db2.page_size 1 = fetch_page db1.file db1.page_size 1) :
    Db.get_table_configs db2 = Db.get_table_configs db1 := by
  unfold Db.get_table_configs Db.get_page
  rw [hfetch]

lemma get_table_page_notFound (db : Db) (name : List Nat) (cfgs : List DbTableConfig)
    (hcfg : Db.get_table_configs db = .ok cfgs)
    (habs : ∀ c ∈ cfgs, c.table_name ≠ name) :
    Db.get_table_page db name = .error .notFound := by
  unfold Db.get_table_page
  rw [hcfg]
  dsimp only
  have hfind : cfgs.find? (fun c => c.table_name == name) = none := by
    rw [List.find?_eq_none]
    intro c hc
    simp [habs c hc]
  rw [hfind]

lemma get_page_strings_valid (db : Db) (n : Nat) (rows : List (List DataValue))
    (h : Db.get_page db n = .ok rows) :
    ∀ row ∈ rows, ∀ bs, DataValue.String bs ∈ row → validUtf8 bs = true := by
  intro row hrow bs hbs
  obtain ⟨buf, ncells, hbuf, hcells⟩ := get_page_rows db n rows h
  obtain ⟨ro, hcell⟩ := decode_cells_go_mem buf _ ncells 0 rows hcells row hrow
  obtain ⟨p, hp, hvals⟩ := decode_cell_ok buf ro row hcell
  obtain ⟨-, -, hrv⟩ := decode_cell_parts_inv buf ro p hp
  rw [hvals] at hrv
  exact read_values_strings_valid buf p.tds p.header_end row hrv bs hbs

lemma read_values_utf8_fail (buf : List Nat) (ds : List (DataType × Nat))
    (off i w : Nat) (pre : List DataValue)
    (hpre : read_values buf off (ds.take i) = .ok pre)
    (hget : ds.get? i = some (.String, w))
    (hb : columnOffset off ds i + w ≤ buf.length)
    (hinv : validUtf8 (extractSlice buf (columnOffset off ds i) (columnOffset off ds i + w)) = false) :
    read_values buf off ds = .error .decodeErr := by
  have hi : i < ds.length := by
    by_contra hc
    rw [List.get?_eq_none.2 (by omega)] at hget
    cases hget
  have hgetE : ds[i] = (DataType.String, w) := by
    have h1 : ds[i]? = some (DataType.String, w) := by
      rw [← List.get?_eq_getElem?]
      exact hget
    rw [List.getElem?_eq_getElem hi] at h1
    exact Option.some.inj h1
  have hdrop : ds.drop i = (DataType.String, w) :: ds.drop (i + 1) := by
    rw [List.drop_eq_getElem_cons hi, hgetE]
  have hsplit : ds = ds.take i ++ ds.drop i := (List.take_append_drop i ds).symm
  rw [hsplit, read_values_append, hpre]
  dsimp only
  rw [hdrop]
  have hoff : off + widthSum (ds.take i) = columnOffset off ds i := rfl
  simp only [read_values]
  rw [hoff]
  have hdv : decode_value buf (columnOffset off ds i) w .String = .error .decodeErr := by
    unfold decode_value
    rw [if_pos hb]
    dsimp only
    rw [hinv]
    simp
  rw [hdv]

/-! ## Spec-modelled varint encoder and concrete witness data -/

/-- Low-to-high 7-bit groups of a value, fueled (8 groups suffice below
2 ^ 56); at least one group is produced for fuel above zero. -/
def varintGroups : Nat → Nat → List Nat
  | 0, _ => []
  | fuel + 1, v => if v < 128 then [v] else v % 128 :: varintGroups fuel (v / 128)

/-- Continuation bit on every byte except the last. -/
def markContinuation : List Nat → List Nat
  | [] => []
  | [g] => [g]
  | g :: gs => (g + 128) :: markContinuation gs

/-- Modelled from the spec: the repository has no varint encoder (only
`decode_varint`), so the canonical encoding is reconstructed from the
rules stated by the spec: base 128, most significant byte first, the
continuation bit set on every byte but the last, at most 9 bytes, with
the 9th byte carrying all 8 of its bits for values of at least 2 ^ 56. -/
def encode_varint (v : Nat) : List Nat :=
  if v < 2 ^ 56 then
    markContinuation (varintGroups 8 v).reverse
  else
    ((List.range 8).map (fun i => (v / 2 ^ 8 / 128 ^ i) % 128 + 128)).reverse ++ [v % 256]

/-- A 50-byte catalog page buffer (page 1 of `catalogDb`, so every cell
pointer is in full-page coordinates, 100 above the buffer offset) with
two leaf cells: the first row carries name bytes [116] in column 2 and
root page 2 in column 3; the second row carries an empty name and is
dropped by the catalog filter. -/
def catalogPageBytes : List Nat :=
  [13, 0, 0, 0, 2, 0, 0, 0, 0, 120, 0, 130] ++ List.replicate 8 0 ++
  [10, 1, 5, 0, 0, 15, 1, 116, 2] ++ [0] ++
  [10, 2, 5, 0, 0, 13, 1, 3] ++ List.replicate 12 0

/-- A container of page size 150 whose page 1 decodes to the two
catalog rows of `catalogPageBytes`. -/
def catalogDb : Db := ⟨150, List.replicate 100 0 ++ catalogPageBytes⟩

/-- The rows decoded from page 1 of `catalogDb`. -/
def catalogRows : List (List DataValue) :=
  [[.Null, .Null, .String [116], .Int 2], [.Null, .Null, .String [], .Int 3]]

/-- A container whose catalog page holds no cells at all. -/
def emptyCatalogDb : Db := ⟨120, List.replicate 120 0⟩

/-- Decoded parts of the well-formed example cell
`[2, 1, 2, 15, 104]` (payload size 2, row id 1, header size 2, one
text column of width 1 holding byte 104). -/
def headerExampleParts : CellParts :=
  ⟨2, 1, 1, 1, 2, 1, 2, 4, [(.String, 1)], 4, [.String [104]]⟩

/-! ## Claim theorems -/

/-- C1: varint round-trip fails on the code.  The value 16384 is
encodable by the format rules as the three bytes `[0x81, 0x80, 0x00]`,
but `decode_varint` returns the value 2097152 (it shifts its
accumulator by the cumulative shift counter 0, 7, 14, ... instead of by
7 for every byte), so encoding and then decoding does not return the
original value. -/
theorem decode_varint_breaks_roundtrip_at_16384 :
    encode_varint 16384 = [129, 128, 0] ∧
    decode_varint (encode_varint 16384) = .ok (2097152, 3) ∧
    (2097152 : Nat) ≠ 16384 :=
  ⟨rfl, rfl, by decide⟩

/-- C9: `decode_varint` returns a decoding error exactly when the
input slice is exhausted before a byte with a clear top bit is seen and
before a 9th byte is reached (that is, when the slice holds at most 8
bytes, all with the continuation bit set); on success it consumes at
least one byte and at most min(9, slice length), never reading beyond
the supplied slice. -/
theorem decode_varint_error_and_consumption (bs : List Nat) :
    (decode_varint bs = .error .decodeErr ↔
      bs.length ≤ 8 ∧ ∀ b ∈ bs, b &&& 128 ≠ 0) ∧
    (∀ v n, decode_varint bs = .ok (v, n) → 1 ≤ n ∧ n ≤ 9 ∧ n ≤ bs.length) := by
  constructor
  · simpa using decode_varint_loop_err bs 0 0 0 (by omega)
  · intro v n h
    exact decode_varint_ok_bounds bs v n h

/-- Witness for C9 at concrete inputs: `[0xFF]` is exhausted before
termination and fails; `[0xFF, 0x7F]` succeeds consuming 2 bytes,
within the bound min(9, 2). -/
theorem decode_varint_error_and_consumption_witness :
    decode_varint [255] = .error .decodeErr ∧
    (1 ≤ 2 ∧ 2 ≤ 9 ∧ 2 ≤ [255, 127].length) :=
  ⟨(decode_varint_error_and_consumption [255]).1.mpr ⟨by decide, by decide⟩,
   (decode_varint_error_and_consumption [255, 127]).2 16383 2 rfl⟩

lemma decode_varint_loop_conts (suffix : List Nat) :
    ∀ (pre : List Nat) (r s k : Nat), (∀ b ∈ pre, b &&& 128 ≠ 0) →
      k + pre.length ≤ 8 →
      ∃ r2, decode_varint_loop (pre ++ suffix) r s k =
        decode_varint_loop suffix r2 (s + 7 * pre.length) (k + pre.length) := by
  intro pre
  induction pre with
  | nil =>
    intro r s k hall hk
    exact ⟨r, by simp⟩
  | cons b pre ih =>
    intro r s k hall hk
    have hb : b &&& 128 ≠ 0 := hall b (by simp)
    simp only [List.length_cons] at hk
    have hstep := decode_varint_loop_step_cont b (pre ++ suffix) r s k (by omega) hb
    obtain ⟨r2, hrec⟩ := ih (((r <<< s) ||| (b &&& 127)) % 2 ^ 64) (s + 7) (k + 1)
      (fun x hx => hall x (by simp [hx])) (by omega)
    refine ⟨r2, ?_⟩
    have hs : s + 7 + 7 * pre.length = s + 7 * (pre.length + 1) := by ring
    have hk2 : k + 1 + pre.length = k + (pre.length + 1) := by omega
    rw [List.cons_append, hstep, hrec, List.length_cons, ← hs, ← hk2]

/-- C8: on any slice of at least 9 bytes whose first 8 bytes all have
the continuation bit set, `decode_varint` consumes exactly 9 bytes,
folds the full 8 bits of the 9th byte into the result (the low 8 bits
of the result are exactly the 9th byte), and stops without ever
checking the continuation bit of the 9th byte. -/
theorem decode_varint_ninth_byte (b0 b1 b2 b3 b4 b5 b6 b7 b8 : Nat) (rest : List Nat)
    (h0 : b0 &&& 128 ≠ 0) (h1 : b1 &&& 128 ≠ 0) (h2 : b2 &&& 128 ≠ 0)
    (h3 : b3 &&& 128 ≠ 0) (h4 : b4 &&& 128 ≠ 0) (h5 : b5 &&& 128 ≠ 0)
    (h6 : b6 &&& 128 ≠ 0) (h7 : b7 &&& 128 ≠ 0) (hb8 : b8 < 256) :
    ∃ v, decode_varint (b0 :: b1 :: b2 :: b3 :: b4 :: b5 :: b6 :: b7 :: b8 :: rest) =
      .ok (v, 9) ∧ v % 256 = b8 := by
  obtain ⟨r2, hrun⟩ := decode_varint_loop_conts (b8 :: rest)
    [b0, b1, b2, b3, b4, b5, b6, b7] 0 0 0
    (by intro b hb; fin_cases hb <;> assumption) (by simp)
  refine ⟨_, ?_, shift56_lor_mod256 r2 b8 hb8⟩
  show decode_varint_loop (b0 :: b1 :: b2 :: b3 :: b4 :: b5 :: b6 :: b7 :: b8 :: rest) 0 0 0 = _
  rw [show (b0 :: b1 :: b2 :: b3 :: b4 :: b5 :: b6 :: b7 :: b8 :: rest) =
      [b0, b1, b2, b3, b4, b5, b6, b7] ++ (b8 :: rest) from rfl]
  rw [hrun]
  exact decode_varint_loop_step9 b8 rest r2 (0 + 7 * 8)

/-- Witness for C8: the 9-byte input of all 0xFF bytes decodes with 9
bytes consumed and the full 9th byte in the low bits of the result. -/
theorem decode_varint_ninth_byte_witness :
    ∃ v, decode_varint [255, 255, 255, 255, 255, 255, 255, 255, 255] = .ok (v, 9) ∧
      v % 256 = 255 :=
  decode_varint_ninth_byte 255 255 255 255 255 255 255 255 255 []
    (by decide) (by decide) (by decide) (by decide) (by decide) (by decide)
    (by decide) (by decide) (by decide)

/-- C2 (amended): the page offset law holds as long as the 16-bit
arithmetic does not wrap: for page 1 with 100 ≤ page_size ≤ 65535 the
fetched buffer is exactly the page_size - 100 bytes starting at file
offset 100, and for page N > 1 (N, page_size in u16 range) with
(N - 1) * page_size < 65536 it is exactly the page_size bytes starting
at file offset (N - 1) * page_size, whenever the file can satisfy the
read. -/
theorem fetch_page_offset_law :
    (∀ (file : List Nat) (ps : Nat), 100 ≤ ps → ps ≤ 65535 →
      100 + (ps - 100) ≤ file.length →
      fetch_page file ps 1 = .ok (extractSlice file 100 (100 + (ps - 100))) ∧
      (extractSlice file 100 (100 + (ps - 100))).length = ps - 100) ∧
    (∀ (file : List Nat) (ps n : Nat), 2 ≤ n → n ≤ 65535 → ps ≤ 65535 →
      (n - 1) * ps < 65536 → (n - 1) * ps + ps ≤ file.length →
      fetch_page file ps n = .ok (extractSlice file ((n - 1) * ps) ((n - 1) * ps + ps)) ∧
      (extractSlice file ((n - 1) * ps) ((n - 1) * ps + ps)).length = ps) := by
  constructor
  · intro file ps h100 h65 hlen
    unfold fetch_page
    have hif : (if (1 : Nat) = 1 then (100 : Nat) else 0) = 100 := by simp
    rw [hif]
    dsimp only
    have hpi : ((1 : Nat) + 2 ^ 16 - 1) % 2 ^ 16 = 0 := by norm_num
    rw [hpi, Nat.zero_mul]
    have hbl : (ps + 2 ^ 16 - 100) % 2 ^ 16 = ps - 100 := by omega
    rw [hbl]
    have hseek : ((0 : Nat) + 100) % 2 ^ 16 = 100 := by norm_num
    rw [hseek, if_pos hlen]
    exact ⟨rfl, by rw [extractSlice_length file 100 (100 + (ps - 100)) hlen]; omega⟩
  · intro file ps n h2 h65n h65p hmul hlen
    unfold fetch_page
    have hif : (if n = 1 then (100 : Nat) else 0) = 0 := by
      rw [if_neg (by omega)]
    rw [hif]
    dsimp only
    have hpi : (n + 2 ^ 16 - 1) % 2 ^ 16 = n - 1 := by omega
    rw [hpi]
    have hbl : (ps + 2 ^ 16 - 0) % 2 ^ 16 = ps := by omega
    rw [hbl]
    have hseek : ((n - 1) * ps + 0) % 2 ^ 16 = (n - 1) * ps := by
      rw [Nat.add_zero]
      exact Nat.mod_eq_of_lt hmul
    rw [hseek, if_pos hlen]
    exact ⟨rfl, by rw [extractSlice_length file ((n - 1) * ps) ((n - 1) * ps + ps) hlen]; omega⟩

/-- Counterexample to C2 as stated: with page_size 256 and page number
257 the u16 seek arithmetic wraps ((257 - 1) * 256 = 65536 ≡ 0), so the
fetch succeeds on a 256-byte file and returns bytes from offset 0, even
though the claimed source offset (257 - 1) * 256 lies entirely beyond
the end of the file. -/
theorem fetch_page_offset_wraps_at_page_257 :
    fetch_page (List.replicate 256 3) 256 257 = .ok (List.replicate 256 3) ∧
    (List.replicate 256 3).length < (257 - 1) * 256 := by
  constructor
  · unfold fetch_page
    dsimp only
    norm_num [extractSlice, List.take_replicate, List.length_replicate]
  · simp only [List.length_replicate]
    norm_num

/-- Witness for C2 at a concrete input: a 300-byte file with page size
150; page 2 is the 150 bytes starting at offset 150. -/
theorem fetch_page_offset_law_witness :
    fetch_page (List.range 300) 150 2 = .ok (extractSlice (List.range 300) 150 300) ∧
    (extractSlice (List.range 300) 150 300).length = 150 := by
  have h := fetch_page_offset_law.2 (List.range 300) 150 2
    (by norm_num) (by norm_num) (by norm_num) (by norm_num) (by simp)
  simpa using h

lemma get_type_definition_fallthrough (c : Nat) (h : 7 ≤ c) :
    get_type_definition c =
      if c % 2 = 0 then (.Unknown, ((c + 2 ^ 64 - 12) % 2 ^ 64) / 2)
      else (.String, ((c + 2 ^ 64 - 13) % 2 ^ 64) / 2) := by
  unfold get_type_definition
  split_ifs <;> first | rfl | (exfalso; omega)

/-- C3 (amended): the type-code rule holds for codes 0 through 6 and
for every code of at least 12 (even codes give Unrecognized of width
(code - 12) / 2, odd codes give Text of width (code - 13) / 2), but
codes 7 through 11 do not fall through as width 0 / Unrecognized: the
wrapping u64 subtraction gives widths near 2 ^ 63, with Text for the
odd codes 7, 9, 11 and Unrecognized for the even codes 8, 10. -/
theorem get_type_definition_rule :
    get_type_definition 0 = (.Null, 0) ∧
    get_type_definition 1 = (.Int8, 1) ∧
    get_type_definition 2 = (.Int16, 2) ∧
    get_type_definition 3 = (.Int24, 3) ∧
    get_type_definition 4 = (.Int32, 4) ∧
    get_type_definition 5 = (.Int48, 6) ∧
    get_type_definition 6 = (.Int64, 8) ∧
    (∀ c, 12 ≤ c → c < 2 ^ 64 → c % 2 = 0 →
      get_type_definition c = (.Unknown, (c - 12) / 2)) ∧
    (∀ c, 13 ≤ c → c < 2 ^ 64 → c % 2 = 1 →
      get_type_definition c = (.String, (c - 13) / 2)) ∧
    get_type_definition 7 = (.String, 2 ^ 63 - 3) ∧
    get_type_definition 8 = (.Unknown, 2 ^ 63 - 2) ∧
    get_type_definition 9 = (.String, 2 ^ 63 - 2) ∧
    get_type_definition 10 = (.Unknown, 2 ^ 63 - 1) ∧
    get_type_definition 11 = (.String, 2 ^ 63 - 1) := by
  refine ⟨by decide, by decide, by decide, by decide, by decide, by decide, by decide,
    ?_, ?_, by decide, by decide, by decide, by decide, by decide⟩
  · intro c h12 h64 hpar
    rw [get_type_definition_fallthrough c (by omega), if_pos hpar]
    have hm : (c + 2 ^ 64 - 12) % 2 ^ 64 = c - 12 := by omega
    rw [hm]
  · intro c h13 h64 hpar
    rw [get_type_definition_fallthrough c (by omega), if_neg (by omega)]
    have hm : (c + 2 ^ 64 - 13) % 2 ^ 64 = c - 13 := by omega
    rw [hm]

/-- Counterexample to C3 as stated: serial type code 7 does not yield
width 0 / Unrecognized; the wrapping subtraction gives a Text
descriptor of width 2 ^ 63 - 3. -/
theorem get_type_definition_code7_not_width0 :
    get_type_definition 7 = (.String, 9223372036854775805) ∧
    get_type_definition 7 ≠ (.Unknown, 0) := by
  exact ⟨by decide, by decide⟩

/-- Witness for C3 at concrete codes: 14 is an even blob code of width
1 and 17 a text code of width 2. -/
theorem get_type_definition_rule_witness :
    get_type_definition 14 = (.Unknown, 1) ∧ get_type_definition 17 = (.String, 2) :=
  ⟨get_type_definition_rule.2.2.2.2.2.2.2.1 14 (by norm_num) (by norm_num) (by norm_num),
   get_type_definition_rule.2.2.2.2.2.2.2.2.1 17 (by norm_num) (by norm_num) (by norm_num)⟩

/-- C7 (amended): for every successfully decoded cell whose declared
record-header length is at least the byte size of the header-length
varint itself and whose header end offset does not overflow usize, the
descriptor loop consumes header bytes until its cursor sits exactly at
headerStart + H (so the declared length exactly bounds the descriptor
sequence and no descriptor varint reads past the header end, every
descriptor being decoded from a slice that stops at the header end).
When H is smaller than its own varint (e.g. H = 0) the loop decodes
nothing and the header consumption overshoots H. -/
theorem record_header_exact_bound (buf : List Nat) (ro : Nat) (p : CellParts)
    (h : decode_cell_parts buf ro = .ok p)
    (ho3 : p.o3 ≤ p.header_size)
    (hnw : p.r2 + p.header_size < 2 ^ 64) :
    p.header_cursor = p.r2 + p.header_size ∧
    p.header_end = p.r2 + p.header_size := by
  obtain ⟨htd, hhe, -⟩ := decode_cell_parts_inv buf ro p h
  have hhe2 : p.header_end = p.r2 + p.header_size := by
    rw [hhe]
    exact Nat.mod_eq_of_lt hnw
  refine ⟨?_, hhe2⟩
  have hfin := read_typedefs_exact buf (p.r2 + p.o3) p.header_end p.tds p.header_cursor
    (by rw [hhe2]; omega) htd
  rw [hfin, hhe2]

/-- Counterexample to C7 as stated: the cell `[5, 1, 0]` (payload size
5, row id 1, record-header length H = 0) decodes successfully to an
empty row, but the header-length varint itself consumed one byte, so
the cursor after the header phase is 3 while headerStart + H = 2 + 0:
the descriptor phase did not consume exactly H bytes of header. -/
theorem record_header_bound_fails_at_zero_header :
    decode_cell [5, 1, 0] 0 = .ok [] ∧
    decode_cell_parts [5, 1, 0] 0 = .ok ⟨5, 1, 1, 1, 0, 1, 2, 2, [], 3, []⟩ ∧
    (3 : Nat) ≠ 2 + 0 :=
  ⟨rfl, rfl, by decide⟩

/-- Witness for C7 at a concrete well-formed cell: `[2, 1, 2, 15, 104]`
declares H = 2 covering the length varint plus one text descriptor, and
the descriptor loop ends exactly at headerStart + 2 = 4. -/
theorem record_header_exact_bound_witness :
    decode_cell_parts [2, 1, 2, 15, 104] 0 = .ok headerExampleParts ∧
    headerExampleParts.header_cursor =
      headerExampleParts.r2 + headerExampleParts.header_size :=
  ⟨rfl, (record_header_exact_bound [2, 1, 2, 15, 104] 0 headerExampleParts rfl
    (by decide) (by decide)).1⟩

/-- C4: column values are read back-to-back in header order.  Part one:
for every successful value read, the number of values equals the number
of descriptors and the value of column i is decoded from the slice of
the declared width at the offset accumulated from the earlier widths —
Text is the UTF-8-validated slice, Int8 the first byte of its slice as
a signed byte, Null the Null value, and every other type an
Unrecognized value.  Part two: descriptors produced by
`get_type_definition` give Int8 width 1 (a single byte) and Null width
0 (zero bytes consumed).  Part three: an invalid-UTF-8 text column
(reached after the earlier columns read fine) makes the whole value
read fail with the decode error.  Part four: consequently any row list
returned by `Db.get_page` contains only UTF-8-valid text values — an
invalid text column yields no rows. -/
theorem read_values_column_decoding :
    (∀ (buf : List Nat) (ds : List (DataType × Nat)) (off : Nat) (vals : List DataValue),
      read_values buf off ds = .ok vals →
      vals.length = ds.length ∧
      ∀ i t w, ds.get? i = some (t, w) →
        columnOffset off ds i + w ≤ buf.length ∧
        (t = .String →
          validUtf8 (extractSlice buf (columnOffset off ds i) (columnOffset off ds i + w)) = true ∧
          vals.get? i = some (.String (extractSlice buf (columnOffset off ds i) (columnOffset off ds i + w)))) ∧
        (t = .Int8 →
          vals.get? i = some (.Int (toI8 ((extractSlice buf (columnOffset off ds i) (columnOffset off ds i + w)).headD 0)))) ∧
        (t = .Null → vals.get? i = some .Null) ∧
        (t ≠ .String → t ≠ .Int8 → t ≠ .Null → vals.get? i = some .Unknown)) ∧
    (∀ ds : List (DataType × Nat), (∀ d ∈ ds, ∃ c, d = get_type_definition c) →
      ∀ i t w, ds.get? i = some (t, w) → (t = .Int8 → w = 1) ∧ (t = .Null → w = 0)) ∧
    (∀ (buf : List Nat) (ds : List (DataType × Nat)) (off i w : Nat) (pre : List DataValue),
      read_values buf off (ds.take i) = .ok pre →
      ds.get? i = some (.String, w) →
      columnOffset off ds i + w ≤ buf.length →
      validUtf8 (extractSlice buf (columnOffset off ds i) (columnOffset off ds i + w)) = false →
      read_values buf off ds = .error .decodeErr) ∧
    (∀ (db : Db) (n : Nat) (rows : List (List DataValue)),
      Db.get_page db n = .ok rows →
      ∀ row ∈ rows, ∀ bs, DataValue.String bs ∈ row → validUtf8 bs = true) := by
  refine ⟨?_, ?_, ?_, get_page_strings_valid⟩
  · intro buf ds off vals h
    exact ⟨read_values_length buf ds off vals h, read_values_spec buf ds off vals h⟩
  · intro ds hwf i t w hget
    have hmem : (t, w) ∈ ds := List.get?_mem hget
    obtain ⟨c, hc⟩ := hwf _ hmem
    constructor
    · intro ht
      subst ht
      exact get_type_definition_int8_width c w hc.symm
    · intro ht
      subst ht
      exact get_type_definition_null_width c w hc.symm
  · intro buf ds off i w pre hpre hget hb hinv
    exact read_values_utf8_fail buf ds off i w pre hpre hget hb hinv

/-- Witness for C4 at a concrete input: buffer [104, 105, 7] with a
text column of width 2 and an Int8 column; column 0 is the validated
text slice [104, 105]. -/
theorem read_values_column_decoding_witness :
    [DataValue.String [104, 105], DataValue.Int 7].get? 0 =
      some (DataValue.String (extractSlice [104, 105, 7] 0 2)) := by
  have h := (read_values_column_decoding.1 [104, 105, 7] [(.String, 2), (.Int8, 1)] 0
    [.String [104, 105], .Int 7] rfl).2 0 .String 2 rfl
  exact (h.2.1 rfl).2

/-- C5: for every successfully decoded catalog page, the table name
list equals the rows filtered by "nonempty name and nonzero root page"
and mapped to their names, where the name is column index 2 (empty
unless Text) and the root page column index 3 (zero unless an integer):
a row with empty name or zero page number never contributes to the
output of the table-name listing. -/
theorem catalog_filtering (db : Db) (rows : List (List DataValue))
    (h : Db.get_page db 1 = .ok rows) :
    Db.get_table_names db = .ok ((rows.filter keepRow).map rowName) := by
  unfold Db.get_table_names Db.get_table_configs
  rw [h]
  dsimp only
  rw [filterMap_configOfRow, List.map_map]
  rfl

set_option maxRecDepth 4000 in
/-- Witness for C5 on the concrete container `catalogDb`: of its two
catalog rows only the one named [116] survives (the other has an empty
name), so the name listing is exactly [[116]]. -/
theorem catalog_filtering_witness :
    Db.get_table_names catalogDb = .ok [[116]] := by
  have h := catalog_filtering catalogDb catalogRows rfl
  rw [h]
  rfl

/-- C6: when the decoded catalog has no entry whose name equals the
requested name (byte-exact, hence case-sensitive, comparison), the
table lookup fails with the not-found error, and the result is the
same for every container whose page-1 fetch returns the same bytes —
no page other than the catalog page influences the call. -/
theorem read_table_not_found (db : Db) (name : List Nat) (cfgs : List DbTableConfig)
    (hcfg : Db.get_table_configs db = .ok cfgs)
    (habs : ∀ c ∈ cfgs, c.table_name ≠ name) :
    Db.get_table_page db name = .error .notFound ∧
    ∀ db2 : Db, fetch_page db2.file db2.page_size 1 = fetch_page db.file db.page_size 1 →
      Db.get_table_page db2 name = .error .notFound := by
  constructor
  · exact get_table_page_notFound db name cfgs hcfg habs
  · intro db2 hf
    have hc2 : Db.get_table_configs db2 = .ok cfgs := by
      rw [get_table_configs_fetch_congr db db2 hf, hcfg]
    exact get_table_page_notFound db2 name cfgs hc2 habs

/-- Witness for C6 on a concrete container with an empty catalog: the
lookup of name [116] fails with the not-found error. -/
theorem read_table_not_found_witness :
    Db.get_table_page emptyCatalogDb [116] = .error .notFound :=
  (read_table_not_found emptyCatalogDb [116] [] rfl (by simp)).1

/-- C10: page decoding indexes the buffer without bounds checks and,
on page 1, subtracts the 100-byte header offset from each cell pointer
with wrapping u16 arithmetic.  First part: under the precondition
`page_safe` (page header and cell pointers readable, every pointer at
least start_offset, and every derived cell, header and value offset
within the fetched buffer) decoding never reaches a panic branch (never
returns the out-of-bounds error).  Second part: the precondition is
needed — on a page-1 buffer (whose length is at most 65535 - 100) any
cell pointer below 100 underflows the u16 subtraction and decoding that
cell hits the panic branch. -/
theorem decode_page_safe_no_panic :
    (∀ (buf : List Nat) (s : Nat), page_safe buf s = true →
      decode_page buf s ≠ .error .oob) ∧
    (∀ (buf : List Nat) (p : Nat), buf.length ≤ 65435 → p < 100 →
      decode_cell buf ((p + 2 ^ 16 - 100) % 2 ^ 16) = .error .oob) := by
  constructor
  · exact page_safe_no_oob
  · intro buf p hlen hp
    have hro : (p + 2 ^ 16 - 100) % 2 ^ 16 = p + 65436 := by omega
    rw [hro]
    have hparts : decode_cell_parts buf (p + 65436) = .error .oob := by
      unfold decode_cell_parts
      have hs : sliceFrom buf (p + 65436) = .error .oob := by
        unfold sliceFrom
        rw [if_neg (by omega)]
      rw [hs]
    unfold decode_cell
    rw [hparts]

/-- Witness for C10: the concrete catalog page buffer satisfies the
precondition and decodes without reaching a panic branch, while the
empty buffer with a page-1 pointer of 50 underflows and panics. -/
theorem decode_page_safe_no_panic_witness :
    decode_page catalogPageBytes 100 ≠ .error .oob ∧
    decode_cell [] ((50 + 2 ^ 16 - 100) % 2 ^ 16) = .error .oob :=
  ⟨decode_page_safe_no_panic.1 catalogPageBytes 100 rfl,
   decode_page_safe_no_panic.2 [] 50 (by decide) (by decide)⟩
